import Mathlib

/-!
Verification of the dependency-fetch engine of the `gvt` vendoring tool
(`fetch.go`), against its natural-language specification.

The Go source is shallowly embedded:

* pure helpers (`findMissing`, `keys`, `stripscheme`, string sorting) become
  Lean functions; the unbounded recursion of `findMissing`'s inner `fn` is
  bounded by explicit fuel (`keys + 1` levels always suffice, because every
  nested call pushes a distinct map key onto the visitation stack — the fuel
  error is an artefact of the embedding, not of the program);
* Go panics (`import loop`, `impossible pop`, and panics escaping `findMissing`
  into the fetch loop) become `Except` errors;
* the effectful parts of `fetch` are modelled by explicit state passing: a
  `World` carries the persisted manifest and a trace of the externally visible
  events (checkout, copy, successful manifest write, working-copy destroy, the
  "fetching recursive dependency" log line), and the out-of-scope collaborators
  (repository deduction, checkout, the package loader, the directory copier,
  the fallible manifest save) are oracle functions bundled in a `FetchEnv`;
* Go `map[string]T` values iterated in unspecified order are represented by
  association lists (first match wins on lookup; later Go map assignments are
  therefore *prepended*), and `map[string]bool` sets by duplicate-free lists.

Package-level mutable flag variables (`branch`, `tag`, `revision`, `insecure`)
are threaded explicitly as a `Globals` record.  Note the Go scoping subtlety
faithfully reproduced below: `branch, err := wc.Branch()` (fetch.go line 111)
declares a *function-local* `branch` that shadows the package-level variable
for the rest of `fetch`, so the later `branch = ""` (line 149) writes the
dead local, not the package-level selector.
-/

deriving instance DecidableEq for Except

/-- One loadable package, as the graph analyzer sees it: its import path and
the list of import paths it references (`vendor.Pkg`, of which `findMissing`
reads only `ImportPath` and `Imports`). -/
structure Pkg where
  importPath : String
  imports : List String
deriving DecidableEq

/-- A set of packages found under one package root (`vendor.Depset`; only its
`Pkgs` collection is read by the fetch code). -/
structure Depset where
  pkgs : List Pkg
deriving DecidableEq

/-- Association-list lookup, first match wins (model of Go map indexing; the
builder below prepends later assignments so that they override earlier ones). -/
def lookupA {α : Type} (l : List (String × α)) (k : String) : Option α :=
  match l with
  | [] => none
  | (k1, v) :: rest => if k = k1 then some v else lookupA rest k

/-- Set-insert for the `map[string]bool` sets of `findMissing` (`missing[x] =
true` changes `len(missing)` only when the key is new). -/
def insertS (x : String) (l : List String) : List String :=
  if x ∈ l then l else x :: l

/-- The mutable state of `findMissing`: the `missing` set, the visitation
stack `stk`, and the memo set `checked`. -/
structure FMSt where
  missing : List String
  stk : List String
  checked : List String
deriving DecidableEq

/-- The ways `findMissing` can abort: the two `panic` calls of the source, plus
the out-of-fuel artefact of the bounded embedding (unreachable with the fuel
chosen by `findMissing`, since nested calls push pairwise distinct keys). -/
inductive FmErr where
  | loop (v : String)
  | pop (v : String)
  | fuel
deriving DecidableEq

/-- The combined import-path → package table of `findMissing` (fetch.go lines
221–234): every package of every depset, then the fake cgo `"C"` entry
assigned last, hence prepended so that it overrides everything.  Go iterates
the `dsm` map in unspecified order; the embedding fixes list order, and
reverses so that later assignments win under first-match lookup. -/
def buildImports (dsm : List (String × Depset)) : List (String × List String) :=
  ("C", []) ::
    (dsm.flatMap (fun s => s.2.pkgs.map (fun p => (p.importPath, p.imports)))).reverse

/-- The `for _, i := range p.Imports` loop of `fn` (fetch.go lines 267–272):
self-imports are skipped, any error (panic) propagates. -/
def runList (step : String → FMSt → Except FmErr FMSt) (ip : String) :
    List String → FMSt → Except FmErr FMSt
  | [], st => .ok st
  | i :: rest, st =>
    if i = ip then runList step ip rest st
    else
      match step i st with
      | .error e => .error e
      | .ok st1 => runList step ip rest st1

/-- The recursive closure `fn` of `findMissing` (fetch.go lines 252–280),
with explicit fuel.  Order of operations follows the source: map lookup
(absent ⇒ record missing and return), memo check, `sz := len(missing)`,
`push` (panicking if already on the stack), the import loop, the memo update
when no new missing entry appeared, then `pop` (panicking if absent). -/
def fnGo (imp : List (String × List String)) : Nat → String → FMSt → Except FmErr FMSt
  | 0, _, _ => .error .fuel
  | fuel + 1, ip, st =>
    match lookupA imp ip with
    | none => .ok { st with missing := insertS ip st.missing }
    | some l =>
      if ip ∈ st.checked then .ok st
      else
        let sz := st.missing.length
        if ip ∈ st.stk then .error (.loop ip)
        else
          match runList (fnGo imp fuel) ip l { st with stk := ip :: st.stk } with
          | .error e => .error e
          | .ok st2 =>
            -- The source updates `checked` and then pops; the memo update does
            -- not touch the stack, so the pop test reads `st2.stk` either way.
            let checked3 :=
              if st2.missing.length = sz then ip :: st2.checked else st2.checked
            if ip ∈ st2.stk then
              .ok { missing := st2.missing, stk := st2.stk.erase ip, checked := checked3 }
            else .error (.pop ip)

/-- The `for _, pkg := range pkgs { fn(pkg.ImportPath) }` driver loop of
`findMissing` (fetch.go lines 281–283). -/
def runTargets (step : String → FMSt → Except FmErr FMSt) :
    List Pkg → FMSt → Except FmErr FMSt
  | [], st => .ok st
  | p :: rest, st =>
    match step p.importPath st with
    | .error e => .error e
    | .ok st1 => runTargets step rest st1

/-- `findMissing` (fetch.go lines 219–285): builds the combined import table,
runs the memoized depth-first search from every target package, and returns
the accumulated missing set; a panic becomes an `Except.error`. -/
def findMissing (pkgs : List Pkg) (dsm : List (String × Depset)) :
    Except FmErr (List String) :=
  match runTargets (fnGo (buildImports dsm) ((buildImports dsm).length + 1)) pkgs
      ⟨[], [], []⟩ with
  | .error e => .error e
  | .ok st => .ok st.missing

/-- The memo-free variant of `fn`, used to state the refinement claim about
the `checked` memoization: identical to `fnGo` with the `checked` reads and
writes removed (the spec's "fully re-traversing each target independently
without the memo"). -/
def fnNoMemo (imp : List (String × List String)) : Nat → String → FMSt → Except FmErr FMSt
  | 0, _, _ => .error .fuel
  | fuel + 1, ip, st =>
    match lookupA imp ip with
    | none => .ok { st with missing := insertS ip st.missing }
    | some l =>
      if ip ∈ st.stk then .error (.loop ip)
      else
        match runList (fnNoMemo imp fuel) ip l { st with stk := ip :: st.stk } with
        | .error e => .error e
        | .ok st2 =>
          if ip ∈ st2.stk then .ok { st2 with stk := st2.stk.erase ip }
          else .error (.pop ip)

/-- `findMissing` without the `checked` memoization (companion of `fnNoMemo`). -/
def findMissingNoMemo (pkgs : List Pkg) (dsm : List (String × Depset)) :
    Except FmErr (List String) :=
  match runTargets (fnNoMemo (buildImports dsm) ((buildImports dsm).length + 1)) pkgs
      ⟨[], [], []⟩ with
  | .error e => .error e
  | .ok st => .ok st.missing

/-- Byte-lexicographic order on character lists, used to model Go's string
comparison (`sort.Strings`); on UTF-8 encoded strings Go's byte order agrees
with code-point order. -/
def listLe : List Char → List Char → Bool
  | [], _ => true
  | _ :: _, [] => false
  | a :: as, b :: bs =>
    if a.toNat < b.toNat then true
    else if b.toNat < a.toNat then false
    else listLe as bs

/-- Go's `s <= t` on strings (lexicographic). -/
def goLe (a b : String) : Bool := listLe a.data b.data

/-- Ordered insertion, helper of `sortStrings`. -/
def insortGo (x : String) : List String → List String
  | [] => [x]
  | y :: ys => if goLe x y then x :: y :: ys else y :: insortGo x ys

/-- Model of `sort.Strings` (fetch.go line 188): produces the ascending
reordering of the key list.  (Go uses a different sorting algorithm, but for
strings the sorted permutation is unique up to equal elements, so any correct
sort is an exact model of the result.) -/
def sortStrings : List String → List String
  | [] => []
  | x :: xs => insortGo x (sortStrings xs)

/-- `keys` (fetch.go lines 203–209): extracts the key list of the missing set;
in the embedding the missing set already is its (duplicate-free) key list. -/
def keys (missing : List String) : List String := missing

/-- `pkgs` (fetch.go lines 211–217): turns the `Pkgs` map of a depset into a
slice; in the embedding the collection already is a list. -/
def pkgsOf (m : List Pkg) : List Pkg := m

/-- Helper of `stripscheme`: find the first `"://"` and return what follows. -/
def dropSchemePart : List Char → Option (List Char)
  | [] => none
  | ':' :: '/' :: '/' :: rest => some rest
  | _ :: cs => dropSchemePart cs

/-- `stripscheme` (fetch.go lines 287–294), which returns `u.Host + u.Path` of
the parsed URL: for an input of the shape `scheme://host/path` this is
everything after the first `"://"`; an input without a scheme separator parses
with empty scheme and host and is returned unchanged.  (Query/fragment parts,
which the fetch command never receives, are not modelled.) -/
def stripscheme (path : String) : String :=
  match dropSchemePart path.data with
  | some rest => String.mk rest
  | none => path

/-! ## Semantic characterization of the graph traversal

`ReachAbsent imp p x` is pure-graph reachability of the absent import `x`
from `p`: either `p` itself has no entry in the combined table, or some
non-self import edge leads on.  It characterizes exactly what `findMissing`
accumulates, which is the backbone for the memoization-equivalence, cgo and
absence claims. -/

/-- `x` is an import path that the traversal rooted at `p` must report
missing: reachable from `p` along non-self import edges of present packages,
with `x` itself absent from the combined table. -/
inductive ReachAbsent (imp : List (String × List String)) : String → String → Prop
  | here {x : String} : lookupA imp x = none → ReachAbsent imp x x
  | step {p i x : String} {l : List String} :
      lookupA imp p = some l → i ∈ l → i ≠ p → ReachAbsent imp i x →
      ReachAbsent imp p x

/-- The memo invariant: everything reachable-and-absent from a `checked`
package is already recorded in `missing`. -/
def CheckedInv (imp : List (String × List String)) (st : FMSt) : Prop :=
  ∀ p ∈ st.checked, ∀ x, ReachAbsent imp p x → x ∈ st.missing

/-- The behaviour a single traversal step must have for the characterization
to go through: it preserves the memo invariant, only grows `missing`, adds
everything reachable-and-absent from its argument, and adds nothing else. -/
def StepSpec (imp : List (String × List String))
    (step : String → FMSt → Except FmErr FMSt) : Prop :=
  ∀ i st st1, CheckedInv imp st → step i st = .ok st1 →
    CheckedInv imp st1 ∧ st.missing ⊆ st1.missing ∧
    (∀ x, ReachAbsent imp i x → x ∈ st1.missing) ∧
    (∀ x, x ∈ st1.missing → x ∈ st.missing ∨ ReachAbsent imp i x)

/-! ## The fetch command

The stateful part of `fetch.go`.  The manifest store, path resolution,
checkout, package loading and directory copy live in packages of this
repository outside `fetch.go` (gbvendor) or in the Go standard library; they
are modelled from the spec's contracts (§4.1, §4.2, §6) as data/oracles. -/

/-- Modelled from the spec (§3 data model): one vendored dependency record
(`vendor.Dependency`), with the fields `fetch.go` populates. -/
structure Dependency where
  importpath : String
  repository : String
  revision : String
  branch : String
  path : String
deriving DecidableEq

/-- Modelled from the spec (§3, §4.1): the manifest is the ordered collection
of dependency records. -/
structure Manifest where
  dependencies : List Dependency
deriving DecidableEq

/-- Modelled from the spec (§4.1): `HasImportPath(Manifest, path) -> bool`. -/
def Manifest.hasImportpath (m : Manifest) (p : String) : Bool :=
  m.dependencies.any (fun d => d.importpath == p)

/-- Modelled from the spec (§4.1): `AddDependency` appends the record, failing
with a duplicate-import error when the import path is already present. -/
def Manifest.addDependency (m : Manifest) (d : Dependency) : Except String Manifest :=
  if m.hasImportpath d.importpath then .error "duplicate import path"
  else .ok ⟨m.dependencies ++ [d]⟩

/-- Modelled from the spec (§6): a working copy as one fetch step observes it —
its directory plus the outcomes of the `Revision()`, `Branch()` and
`Destroy()` calls the step will make on it. -/
structure WorkingCopy where
  dir : String
  revisionR : Except String String
  branchR : Except String String
  destroyR : Except String Unit
deriving DecidableEq

/-- The externally visible events of one fetch command, in order: `Checkout`
(with the selector arguments actually passed), the directory copy, the
*successful* manifest write (committing the new manifest to storage; a failed
`WriteManifest` changes nothing and records nothing), `Destroy`, and the
"fetching recursive dependency" log line of the recursive loop. -/
inductive Event where
  | checkout (repo branch tag revision : String)
  | copied (dst src : String)
  | wroteManifest (m : Manifest)
  | destroyed (dir : String)
  | logRecursive (pkg : String)
deriving DecidableEq

/-- The persistent/observable state threaded through a fetch: the persisted
manifest (what `ReadManifest` returns and `WriteManifest` replaces) and the
event trace. -/
structure World where
  stored : Manifest
  trace : List Event
deriving DecidableEq

/-- The package-level flag variables of `fetch.go` (lines 17–26), threaded
explicitly. -/
structure Globals where
  branch : String
  tag : String
  revision : String
  insecure : Bool
deriving DecidableEq

/-- Modelled from the spec (§2, §4.1, §4.2, §6): the external collaborators of
one fetch command as oracles — `GOROOT`, `vendorDir`, `DeduceRemoteRepo`
(returning the repository URL and the sub-path `extra`), `Checkout` (keyed by
repository URL and the three selectors), `fileutils.Copypath`,
`vendor.WriteManifest` (the §4.1 `Save`, which may fail with a manifest I/O
error; a failed save leaves the persisted manifest unchanged), and
`vendor.LoadPaths` (returning the root-directory-keyed depset map).
`filepath.Join` is modelled as `/`-concatenation and `filepath.FromSlash` as
the identity (Unix). -/
structure FetchEnv where
  goroot : String
  vendorDir : Bool → String
  deduce : String → Bool → Except String (String × String)
  checkout : String → String → String → String → Except String WorkingCopy
  copy : String → String → Except String Unit
  writeManifest : Manifest → Except String Unit
  loadPaths : List (String × String) → Except String (List (String × Depset))

/-- Result classification of a fetch: the `AlreadyErr` sentinel (fetch.go line
78), a panic escaping `findMissing`, or any other error message. -/
inductive Ferr where
  | already
  | fm (e : FmErr)
  | msg (s : String)
deriving DecidableEq

/-- The non-recursive part of `fetch` (fetch.go lines 80–141), which is also
exactly what a recursive invocation `fetch(pkg, false, global)` runs.  Order
follows the source: read manifest (81), deduce the repository *before* the
already-vendored check (86), strip the scheme (93), `HasImportpath` check
returning the sentinel (95–98), checkout with the selector globals (100),
read back revision (106) and branch — into a fresh local that shadows the
package-level `branch` (111) — build the record (116), `AddDependency` (124),
copy (131), persist the manifest only after a successful copy (135; a failing
`WriteManifest` returns on line 136 with the persisted manifest unchanged and
the working copy not destroyed), destroy the working copy only on this fully
successful path (139). -/
def fetchCore (env : FetchEnv) (g : Globals) (w : World) (path0 : String) (glob : Bool) :
    World × Except Ferr Unit :=
  let m := w.stored
  match env.deduce path0 g.insecure with
  | .error e => (w, .error (.msg e))
  | .ok (repoURL, extra) =>
    let path := stripscheme path0
    if m.hasImportpath path then (w, .error .already)
    else
      let w1 : World :=
        { w with trace := w.trace ++ [.checkout repoURL g.branch g.tag g.revision] }
      match env.checkout repoURL g.branch g.tag g.revision with
      | .error e => (w1, .error (.msg e))
      | .ok wc =>
        match wc.revisionR with
        | .error e => (w1, .error (.msg e))
        | .ok rev =>
          match wc.branchR with
          | .error e => (w1, .error (.msg e))
          | .ok branchLocal =>
            let dep : Dependency := ⟨path, repoURL, rev, branchLocal, extra⟩
            match m.addDependency dep with
            | .error e => (w1, .error (.msg e))
            | .ok m2 =>
              let dst := env.vendorDir glob ++ "/" ++ dep.importpath
              let src := wc.dir ++ "/" ++ dep.path
              match env.copy dst src with
              | .error e => (w1, .error (.msg e))
              | .ok _ =>
                let w2 : World := { w1 with trace := w1.trace ++ [.copied dst src] }
                match env.writeManifest m2 with
                | .error e => (w2, .error (.msg e))
                | .ok _ =>
                  let w3 : World :=
                    { stored := m2, trace := w2.trace ++ [.wroteManifest m2] }
                  let w4 : World := { w3 with trace := w3.trace ++ [.destroyed wc.dir] }
                  match wc.destroyR with
                  | .error e => (w4, .error (.msg e))
                  | .ok _ => (w4, .ok ())

/-- The `ForLoop` of `fetch` (fetch.go lines 153–198), with fuel for the
unbounded iteration: rebuild the root list from GOROOT plus the freshly
re-read manifest (156–167), load all depsets (169), locate the depset of the
requested path (174–177), run `findMissing` (179; its panics abort the
command), terminate when nothing is missing (181–182), otherwise sort the
keys, log and fetch the first one non-recursively (187–196), breaking the
loop on the `AlreadyErr` sentinel. -/
def fetchLoop (env : FetchEnv) (g : Globals) (glob : Bool) (path : String) :
    Nat → World → World × Except Ferr Unit
  | 0, w => (w, .error (.msg "loop fuel exhausted"))
  | fuel + 1, w =>
    let paths : List (String × String) :=
      (env.goroot ++ "/src", "") ::
        w.stored.dependencies.map
          (fun d => (env.vendorDir glob ++ "/" ++ d.importpath, d.importpath))
    match env.loadPaths paths with
    | .error e => (w, .error (.msg e))
    | .ok dsm =>
      match lookupA dsm (env.vendorDir glob ++ "/" ++ path) with
      | none => (w, .error (.msg "unable to locate depset"))
      | some ds =>
        match findMissing (pkgsOf ds.pkgs) dsm with
        | .error e => (w, .error (.fm e))
        | .ok missing =>
          match missing with
          | [] => (w, .ok ())
          | _ :: _ =>
            let pkg := (sortStrings (keys missing)).headD ""
            let w1 : World := { w with trace := w.trace ++ [.logRecursive pkg] }
            -- err := fetch(pkg, false, global); break on the sentinel, abort on
            -- any other error, otherwise iterate on the updated world.
            let out := fetchCore env g w1 pkg glob
            match out.2 with
            | .error .already => (out.1, .ok ())
            | .error (.msg e) => (out.1, .error (.msg e))
            | .error (.fm e) => (out.1, .error (.fm e))
            | .ok _ => fetchLoop env g glob path fuel out.1

/-- `fetch` (fetch.go lines 80–201).  After a successful non-recursive step,
a non-recursive call returns (143–145); a recursive call first overwrites the
selector variables so that recursive fetching checks out from HEAD (147–151)
and then enters the loop.  Go scoping subtlety, reproduced faithfully: `tag`
and `revision` on lines 150–151 name the package-level variables and are
cleared, but `branch = ""` on line 149 assigns the function-local `branch`
introduced by the short variable declaration `branch, err := wc.Branch()` on
line 111, which shadows the package-level variable from that point on — so
the package-level `branch` selector read by the recursive invocations is NOT
cleared.  The loop receives the scheme-stripped path (line 93 reassigned the
`path` variable before the loop reads it on line 174). -/
def fetch (env : FetchEnv) (g : Globals) (w : World) (path : String)
    (recurse glob : Bool) (fuel : Nat) : World × Except Ferr Unit :=
  match fetchCore env g w path glob with
  | (w1, .error e) => (w1, .error e)
  | (w1, .ok _) =>
    if recurse then
      let g1 : Globals := { g with tag := "", revision := "" }
      fetchLoop env g1 glob (stripscheme path) fuel w1
    else (w1, .ok ())

/-- Is this event a `Checkout` invocation? -/
def Event.isCheckout : Event → Bool
  | .checkout _ _ _ _ => true
  | _ => false

/-- Is this event a working-copy `Destroy` invocation? -/
def Event.isDestroy : Event → Bool
  | .destroyed _ => true
  | _ => false

/-- Is this event a successful manifest write? -/
def Event.isWrote : Event → Bool
  | .wroteManifest _ => true
  | _ => false

/-! ## Concrete fixtures for counterexamples and witnesses -/

/-- Empty starting world: empty persisted manifest, no events yet. -/
def worldEmpty : World := ⟨⟨[]⟩, []⟩

/-- Selector globals as set by top-level flags in the recursion scenario. -/
def gFlags : Globals := ⟨"dev", "v1", "r1", false⟩

/-- All-empty selector globals. -/
def gEmpty : Globals := ⟨"", "", "", false⟩

/-- A fully cooperative working copy. -/
def wcOK : WorkingCopy := ⟨"tmp", .ok "rev1", .ok "master", .ok ()⟩

/-- A working copy whose `Revision()` call fails. -/
def wcRevFail : WorkingCopy := ⟨"tmp", .error "revision failed", .ok "master", .ok ()⟩

/-- Depset map before the dependency `h/b` is vendored: only `h/a` is present
and it imports `h/b`. -/
def dsmPre : List (String × Depset) := [("vnd/h/a", ⟨[⟨"h/a", ["h/b"]⟩]⟩)]

/-- Depset map after `h/b` is vendored: both packages present. -/
def dsmPost : List (String × Depset) :=
  [("vnd/h/a", ⟨[⟨"h/a", ["h/b"]⟩]⟩), ("vnd/h/b", ⟨[⟨"h/b", []⟩]⟩)]

/-- Environment for the recursive-fetch scenario: everything succeeds, the
loader reports `h/b` missing on the first analysis pass (root list of length
2) and complete afterwards. -/
def envRec : FetchEnv :=
  { goroot := "GR"
    vendorDir := fun _ => "vnd"
    deduce := fun p _ => .ok (if p = "h/a" then "urlA" else "urlB", "")
    checkout := fun _ _ _ _ => .ok wcOK
    copy := fun _ _ => .ok ()
    writeManifest := fun _ => .ok ()
    loadPaths := fun ps => if ps.length ≤ 2 then .ok dsmPre else .ok dsmPost }

/-- Environment in which the checkout succeeds but reading the revision back
from the working copy fails. -/
def envRev : FetchEnv :=
  { goroot := "GR"
    vendorDir := fun _ => "vnd"
    deduce := fun _ _ => .ok ("urlA", "")
    checkout := fun _ _ _ _ => .ok wcRevFail
    copy := fun _ _ => .ok ()
    writeManifest := fun _ => .ok ()
    loadPaths := fun _ => .error "unused" }

/-- Environment with a directory copy that always fails. -/
def envCopyFail : FetchEnv :=
  { goroot := "GR"
    vendorDir := fun _ => "vnd"
    deduce := fun _ _ => .ok ("urlA", "")
    checkout := fun _ _ _ _ => .ok wcOK
    copy := fun _ _ => .error "copy failed"
    writeManifest := fun _ => .ok ()
    loadPaths := fun _ => .error "unused" }

/-- A manifest that already contains the import path `ex.com/a`. -/
def manVendored : Manifest := ⟨[⟨"ex.com/a", "url", "r", "b", ""⟩]⟩

/-- Environment whose repository deduction always fails. -/
def envDed : FetchEnv :=
  { goroot := "GR"
    vendorDir := fun _ => "vnd"
    deduce := fun _ _ => .error "deduce failed"
    checkout := fun _ _ _ _ => .ok wcOK
    copy := fun _ _ => .ok ()
    writeManifest := fun _ => .ok ()
    loadPaths := fun _ => .error "unused" }

/-- Depset for the deterministic-ordering scenario: the target `t` imports
two absent packages, `zzz/pkg` and `aaa/pkg`. -/
def dsSort : Depset := ⟨[⟨"t", ["zzz/pkg", "aaa/pkg"]⟩]⟩

/-- Root map for the deterministic-ordering scenario. -/
def dsmSort : List (String × Depset) := [("vnd/t", dsSort)]

/-- Environment for the deterministic-ordering scenario. -/
def envSort : FetchEnv :=
  { goroot := "GR"
    vendorDir := fun _ => "vnd"
    deduce := fun _ _ => .ok ("url", "")
    checkout := fun _ _ _ _ => .ok wcOK
    copy := fun _ _ => .ok ()
    writeManifest := fun _ => .ok ()
    loadPaths := fun _ => .ok dsmSort }

/-- Targets for the memoization scenario: `A` and `B` share the absent
subtree `X`. -/
def pkgsMemo : List Pkg := [⟨"A", ["B", "X"]⟩, ⟨"B", ["X"]⟩]

/-- Root map for the memoization scenario: `A` and `B` present, `X` absent. -/
def dsmMemo : List (String × Depset) := [("root", ⟨pkgsMemo⟩)]

/-- Expected per-target missing sets of the memoization scenario. -/
def mtMemo : Pkg → List String := fun _ => ["X"]

/-- Root map for the absence-invariant scenario: `A` present importing the
absent `B`. -/
def dsmAbsent : List (String × Depset) := [("root", ⟨[⟨"A", ["B"]⟩]⟩)]

/-! ## Proofs -/

theorem reachAbsent_lookup {imp : List (String × List String)} {p x : String}
    (h : ReachAbsent imp p x) : lookupA imp x = none := by
  induction h with
  | here h0 => exact h0
  | step _ _ _ _ ih => exact ih

theorem insertS_sub (x : String) (l : List String) : l ⊆ insertS x l := by
  intro y hy
  unfold insertS
  split
  · exact hy
  · exact List.mem_cons_of_mem _ hy

theorem mem_insertS_self (x : String) (l : List String) : x ∈ insertS x l := by
  unfold insertS
  split
  · assumption
  · exact List.mem_cons_self _ _

theorem mem_insertS {y x : String} {l : List String} (h : y ∈ insertS x l) :
    y = x ∨ y ∈ l := by
  unfold insertS at h
  split at h
  · exact Or.inr h
  · rcases List.mem_cons.mp h with h1 | h1
    · exact Or.inl h1
    · exact Or.inr h1

theorem runList_spec (imp : List (String × List String))
    (step : String → FMSt → Except FmErr FMSt) (hs : StepSpec imp step)
    (ip : String) :
    ∀ (l : List String) (st st1 : FMSt), CheckedInv imp st →
      runList step ip l st = .ok st1 →
      CheckedInv imp st1 ∧ st.missing ⊆ st1.missing ∧
      (∀ i ∈ l, i ≠ ip → ∀ x, ReachAbsent imp i x → x ∈ st1.missing) ∧
      (∀ x, x ∈ st1.missing → x ∈ st.missing ∨ ∃ i ∈ l, i ≠ ip ∧ ReachAbsent imp i x) := by
  intro l
  induction l with
  | nil =>
    intro st st1 hInv h
    simp only [runList] at h
    cases h
    refine ⟨hInv, fun x hx => hx, ?_, fun x hx => Or.inl hx⟩
    intro i hi
    cases hi
  | cons i rest ih =>
    intro st st1 hInv h
    simp only [runList] at h
    by_cases hip : i = ip
    · rw [if_pos hip] at h
      obtain ⟨h1, h2, h3, h4⟩ := ih st st1 hInv h
      refine ⟨h1, h2, ?_, ?_⟩
      · intro j hj hjne x hx
        rcases List.mem_cons.mp hj with rfl | hj1
        · exact absurd hip hjne
        · exact h3 j hj1 hjne x hx
      · intro x hx
        rcases h4 x hx with h5 | ⟨j, hj, hjne, hr⟩
        · exact Or.inl h5
        · exact Or.inr ⟨j, List.mem_cons_of_mem _ hj, hjne, hr⟩
    · rw [if_neg hip] at h
      cases hmid : step i st with
      | error e => rw [hmid] at h; cases h
      | ok stmid =>
        rw [hmid] at h
        obtain ⟨hInvMid, hsubMid, hcompMid, hsoundMid⟩ := hs i st stmid hInv hmid
        obtain ⟨h1, h2, h3, h4⟩ := ih stmid st1 hInvMid h
        refine ⟨h1, fun x hx => h2 (hsubMid hx), ?_, ?_⟩
        · intro j hj hjne x hx
          rcases List.mem_cons.mp hj with rfl | hj1
          · exact h2 (hcompMid x hx)
          · exact h3 j hj1 hjne x hx
        · intro x hx
          rcases h4 x hx with h5 | ⟨j, hj, hjne, hr⟩
          · rcases hsoundMid x h5 with h6 | h6
            · exact Or.inl h6
            · exact Or.inr ⟨i, List.mem_cons_self _ _, hip, h6⟩
          · exact Or.inr ⟨j, List.mem_cons_of_mem _ hj, hjne, hr⟩

theorem fnGo_spec (imp : List (String × List String)) :
    ∀ fuel, StepSpec imp (fnGo imp fuel) := by
  intro fuel
  induction fuel with
  | zero =>
    intro i st st1 _ h
    simp only [fnGo] at h
    cases h
  | succ fuel ih =>
    intro i st st1 hInv h
    simp only [fnGo] at h
    split at h
    next hl =>
      cases h
      refine ⟨?_, insertS_sub _ _, ?_, ?_⟩
      · intro p hp x hx
        exact insertS_sub _ _ (hInv p hp x hx)
      · intro x hx
        cases hx with
        | here h0 => exact mem_insertS_self _ _
        | step hsome _ _ _ => rw [hl] at hsome; cases hsome
      · intro x hx
        rcases mem_insertS hx with rfl | h1
        · exact Or.inr (ReachAbsent.here hl)
        · exact Or.inl h1
    next l hl =>
      split at h
      next hc =>
        cases h
        exact ⟨hInv, fun x hx => hx, fun x hx => hInv i hc x hx, fun x hx => Or.inl hx⟩
      next hc =>
        split at h
        next hstk => cases h
        next hstk =>
          split at h
          next e hrl => cases h
          next st2 hrl =>
            have hInvPush : CheckedInv imp { st with stk := i :: st.stk } := hInv
            obtain ⟨hInv2, hsub2, hcomp2, hsound2⟩ :=
              runList_spec imp (fnGo imp fuel) ih i l _ st2 hInvPush hrl
            have hcompi : ∀ x, ReachAbsent imp i x → x ∈ st2.missing := by
              intro x hx
              cases hx with
              | here h0 => rw [hl] at h0; cases h0
              | step hsome hmem hne hr =>
                rw [hl] at hsome
                cases hsome
                exact hcomp2 _ hmem hne x hr
            have hsoundi : ∀ x, x ∈ st2.missing → x ∈ st.missing ∨ ReachAbsent imp i x := by
              intro x hx
              rcases hsound2 x hx with h5 | ⟨j, hj, hjne, hr⟩
              · exact Or.inl h5
              · exact Or.inr (ReachAbsent.step hl hj hjne hr)
            split at h
            next hpop =>
              cases h
              refine ⟨?_, hsub2, hcompi, hsoundi⟩
              intro p hp x hx
              by_cases hsz : st2.missing.length = st.missing.length
              · rw [if_pos hsz] at hp
                rcases List.mem_cons.mp hp with rfl | hp1
                · exact hcompi x hx
                · exact hInv2 p hp1 x hx
              · rw [if_neg hsz] at hp
                exact hInv2 p hp x hx
            next hpop => cases h

theorem fnNoMemo_spec (imp : List (String × List String)) :
    ∀ fuel, StepSpec imp (fnNoMemo imp fuel) := by
  intro fuel
  induction fuel with
  | zero =>
    intro i st st1 _ h
    simp only [fnNoMemo] at h
    cases h
  | succ fuel ih =>
    intro i st st1 hInv h
    simp only [fnNoMemo] at h
    split at h
    next hl =>
      cases h
      refine ⟨?_, insertS_sub _ _, ?_, ?_⟩
      · intro p hp x hx
        exact insertS_sub _ _ (hInv p hp x hx)
      · intro x hx
        cases hx with
        | here h0 => exact mem_insertS_self _ _
        | step hsome _ _ _ => rw [hl] at hsome; cases hsome
      · intro x hx
        rcases mem_insertS hx with rfl | h1
        · exact Or.inr (ReachAbsent.here hl)
        · exact Or.inl h1
    next l hl =>
      split at h
      next hstk => cases h
      next hstk =>
        split at h
        next e hrl => cases h
        next st2 hrl =>
          have hInvPush : CheckedInv imp { st with stk := i :: st.stk } := hInv
          obtain ⟨hInv2, hsub2, hcomp2, hsound2⟩ :=
            runList_spec imp (fnNoMemo imp fuel) ih i l _ st2 hInvPush hrl
          have hcompi : ∀ x, ReachAbsent imp i x → x ∈ st2.missing := by
            intro x hx
            cases hx with
            | here h0 => rw [hl] at h0; cases h0
            | step hsome hmem hne hr =>
              rw [hl] at hsome
              cases hsome
              exact hcomp2 _ hmem hne x hr
          have hsoundi : ∀ x, x ∈ st2.missing → x ∈ st.missing ∨ ReachAbsent imp i x := by
            intro x hx
            rcases hsound2 x hx with h5 | ⟨j, hj, hjne, hr⟩
            · exact Or.inl h5
            · exact Or.inr (ReachAbsent.step hl hj hjne hr)
          split at h
          next hpop =>
            cases h
            exact ⟨hInv2, hsub2, hcompi, hsoundi⟩
          next hpop => cases h

theorem runTargets_spec (imp : List (String × List String))
    (step : String → FMSt → Except FmErr FMSt) (hs : StepSpec imp step) :
    ∀ (ps : List Pkg) (st st1 : FMSt), CheckedInv imp st →
      runTargets step ps st = .ok st1 →
      CheckedInv imp st1 ∧ st.missing ⊆ st1.missing ∧
      (∀ p ∈ ps, ∀ x, ReachAbsent imp p.importPath x → x ∈ st1.missing) ∧
      (∀ x, x ∈ st1.missing → x ∈ st.missing ∨ ∃ p ∈ ps, ReachAbsent imp p.importPath x) := by
  intro ps
  induction ps with
  | nil =>
    intro st st1 hInv h
    simp only [runTargets] at h
    cases h
    refine ⟨hInv, fun x hx => hx, ?_, fun x hx => Or.inl hx⟩
    intro p hp
    cases hp
  | cons p rest ih =>
    intro st st1 hInv h
    simp only [runTargets] at h
    cases hmid : step p.importPath st with
    | error e => rw [hmid] at h; cases h
    | ok stmid =>
      rw [hmid] at h
      obtain ⟨hInvMid, hsubMid, hcompMid, hsoundMid⟩ := hs p.importPath st stmid hInv hmid
      obtain ⟨h1, h2, h3, h4⟩ := ih stmid st1 hInvMid h
      refine ⟨h1, fun x hx => h2 (hsubMid hx), ?_, ?_⟩
      · intro q hq x hx
        rcases List.mem_cons.mp hq with rfl | hq1
        · exact h2 (hcompMid x hx)
        · exact h3 q hq1 x hx
      · intro x hx
        rcases h4 x hx with h5 | ⟨q, hq, hr⟩
        · rcases hsoundMid x h5 with h6 | h6
          · exact Or.inl h6
          · exact Or.inr ⟨p, List.mem_cons_self _ _, h6⟩
        · exact Or.inr ⟨q, List.mem_cons_of_mem _ hq, hr⟩

/-- Exact characterization of a successful `findMissing` run: the returned
set is precisely what is reachable-and-absent from the target packages. -/
theorem findMissing_char {pkgs : List Pkg} {dsm : List (String × Depset)}
    {m : List String} (h : findMissing pkgs dsm = .ok m) (x : String) :
    x ∈ m ↔ ∃ p ∈ pkgs, ReachAbsent (buildImports dsm) p.importPath x := by
  unfold findMissing at h
  split at h
  next e hrun => cases h
  next st hrun =>
    cases h
    have hInv0 : CheckedInv (buildImports dsm) ⟨[], [], []⟩ := by
      intro p hp
      cases hp
    obtain ⟨_, _, hcomp, hsound⟩ :=
      runTargets_spec (buildImports dsm) _ (fnGo_spec _ _) pkgs _ st hInv0 hrun
    constructor
    · intro hx
      rcases hsound x hx with h5 | h5
      · cases h5
      · exact h5
    · rintro ⟨p, hp, hr⟩
      exact hcomp p hp x hr

/-- Exact characterization of a successful `findMissingNoMemo` run: the same
reachable-and-absent set. -/
theorem findMissingNoMemo_char {pkgs : List Pkg} {dsm : List (String × Depset)}
    {m : List String} (h : findMissingNoMemo pkgs dsm = .ok m) (x : String) :
    x ∈ m ↔ ∃ p ∈ pkgs, ReachAbsent (buildImports dsm) p.importPath x := by
  unfold findMissingNoMemo at h
  split at h
  next e hrun => cases h
  next st hrun =>
    cases h
    have hInv0 : CheckedInv (buildImports dsm) ⟨[], [], []⟩ := by
      intro p hp
      cases hp
    obtain ⟨_, _, hcomp, hsound⟩ :=
      runTargets_spec (buildImports dsm) _ (fnNoMemo_spec _ _) pkgs _ st hInv0 hrun
    constructor
    · intro hx
      rcases hsound x hx with h5 | h5
      · cases h5
      · exact h5
    · rintro ⟨p, hp, hr⟩
      exact hcomp p hp x hr

/-! ## The sorted pick of the recursive fetch loop

`sort.Strings(keys); pkg := keys[0]` takes the lexicographically smallest
key.  The lemmas below establish exactly that for the embedding's sort. -/

theorem listLe_refl : ∀ l : List Char, listLe l l = true := by
  intro l
  induction l with
  | nil => rfl
  | cons x xs ih =>
    simp only [listLe]
    rw [if_neg (Nat.lt_irrefl _), if_neg (Nat.lt_irrefl _)]
    exact ih

theorem listLe_trans : ∀ a b c : List Char,
    listLe a b = true → listLe b c = true → listLe a c = true := by
  intro a
  induction a with
  | nil => intro b c _ _; rfl
  | cons x xs ih =>
    intro b c hab hbc
    cases b with
    | nil => simp [listLe] at hab
    | cons y ys =>
      cases c with
      | nil => simp [listLe] at hbc
      | cons z zs =>
        simp only [listLe] at hab hbc ⊢
        have hyz : y.toNat ≤ z.toNat := by
          by_cases h3 : y.toNat < z.toNat
          · omega
          · rw [if_neg h3] at hbc
            by_cases h4 : z.toNat < y.toNat
            · rw [if_pos h4] at hbc; cases hbc
            · omega
        by_cases h1 : x.toNat < y.toNat
        · rw [if_pos (by omega : x.toNat < z.toNat)]
        · rw [if_neg h1] at hab
          by_cases h2 : y.toNat < x.toNat
          · rw [if_pos h2] at hab; cases hab
          · rw [if_neg h2] at hab
            by_cases h3 : y.toNat < z.toNat
            · rw [if_pos (by omega : x.toNat < z.toNat)]
            · rw [if_neg h3] at hbc
              by_cases h4 : z.toNat < y.toNat
              · rw [if_pos h4] at hbc; cases hbc
              · rw [if_neg h4] at hbc
                rw [if_neg (by omega : ¬x.toNat < z.toNat),
                  if_neg (by omega : ¬z.toNat < x.toNat)]
                exact ih ys zs hab hbc

theorem listLe_total : ∀ a b : List Char, listLe a b = true ∨ listLe b a = true := by
  intro a
  induction a with
  | nil => intro b; exact Or.inl rfl
  | cons x xs ih =>
    intro b
    cases b with
    | nil => exact Or.inr rfl
    | cons y ys =>
      simp only [listLe]
      by_cases h1 : x.toNat < y.toNat
      · refine Or.inl ?_
        rw [if_pos h1]
      · by_cases h2 : y.toNat < x.toNat
        · refine Or.inr ?_
          rw [if_pos h2]
        · rcases ih ys with h | h
          · refine Or.inl ?_
            rw [if_neg h1, if_neg h2]
            exact h
          · refine Or.inr ?_
            rw [if_neg h2, if_neg h1]
            exact h

theorem goLe_refl (a : String) : goLe a a = true := listLe_refl a.data

theorem goLe_trans {a b c : String} (h1 : goLe a b = true) (h2 : goLe b c = true) :
    goLe a c = true := listLe_trans a.data b.data c.data h1 h2

theorem goLe_total (a b : String) : goLe a b = true ∨ goLe b a = true :=
  listLe_total a.data b.data

theorem length_insortGo (x : String) : ∀ l, (insortGo x l).length = l.length + 1 := by
  intro l
  induction l with
  | nil => rfl
  | cons y ys ih =>
    simp only [insortGo]
    by_cases h : goLe x y = true
    · rw [if_pos h]
      rfl
    · rw [if_neg h]
      simp [List.length_cons, ih]

theorem length_sortStrings : ∀ l : List String, (sortStrings l).length = l.length := by
  intro l
  induction l with
  | nil => rfl
  | cons x xs ih =>
    simp only [sortStrings]
    rw [length_insortGo, ih, List.length_cons]

/-- The head of the sorted key list is a member of the keys and a
`goLe`-lower bound for all of them: `keys[0]` after `sort.Strings` is the
lexicographically smallest missing import path. -/
theorem sortStrings_head_min : ∀ (l : List String) (m : String) (t : List String),
    sortStrings l = m :: t → m ∈ l ∧ ∀ q ∈ l, goLe m q = true := by
  intro l
  induction l with
  | nil => intro m t h; cases h
  | cons x xs ih =>
    intro m t h
    simp only [sortStrings] at h
    cases hs : sortStrings xs with
    | nil =>
      have hxs : xs = [] := by
        have hlen := length_sortStrings xs
        rw [hs] at hlen
        exact List.length_eq_zero.mp hlen.symm
      rw [hs] at h
      simp only [insortGo] at h
      cases h
      subst hxs
      refine ⟨List.mem_cons_self _ _, ?_⟩
      intro q hq
      rcases List.mem_cons.mp hq with rfl | hq1
      · exact goLe_refl _
      · cases hq1
    | cons m1 t1 =>
      rw [hs] at h
      simp only [insortGo] at h
      obtain ⟨hm1, hbound⟩ := ih m1 t1 hs
      by_cases hle : goLe x m1 = true
      · rw [if_pos hle] at h
        obtain ⟨hmx, -⟩ := List.cons_eq_cons.mp h
        rw [← hmx]
        refine ⟨List.mem_cons_self _ _, ?_⟩
        intro q hq
        rcases List.mem_cons.mp hq with rfl | hq1
        · exact goLe_refl _
        · exact goLe_trans hle (hbound q hq1)
      · rw [if_neg hle] at h
        obtain ⟨hmx, -⟩ := List.cons_eq_cons.mp h
        rw [← hmx]
        refine ⟨List.mem_cons_of_mem _ hm1, ?_⟩
        intro q hq
        rcases List.mem_cons.mp hq with rfl | hq1
        · rcases goLe_total m1 q with h2 | h2
          · exact h2
          · exact absurd h2 hle
        · exact hbound q hq1

/-! ## Shape of one fetch step's effect on the world

`fetchCore` either leaves the world untouched (resolution failure or the
already-vendored sentinel), or appends exactly the checkout invocation (any
later failure up to and including the copy), or appends checkout and copy but
nothing else when the copy succeeded and the manifest write then failed (the
persisted manifest stays as it was and the working copy is not destroyed), or
— only when copy and manifest write both succeeded — appends checkout, copy,
manifest write and destroy, storing the grown manifest. -/

theorem fetchCore_world_cases (env : FetchEnv) (g : Globals) (w : World) (path0 : String)
    (glob : Bool) :
    (fetchCore env g w path0 glob).1 = w
  ∨ (∃ repo, (fetchCore env g w path0 glob).1 =
      { stored := w.stored,
        trace := w.trace ++ [Event.checkout repo g.branch g.tag g.revision] })
  ∨ (∃ repo dst src, env.copy dst src = Except.ok () ∧
      (fetchCore env g w path0 glob).1 =
        { stored := w.stored,
          trace := w.trace ++ [Event.checkout repo g.branch g.tag g.revision,
            Event.copied dst src] })
  ∨ (∃ repo dst src m2 d, env.copy dst src = Except.ok () ∧
      env.writeManifest m2 = Except.ok () ∧
      (fetchCore env g w path0 glob).1 =
        { stored := m2,
          trace := w.trace ++ [Event.checkout repo g.branch g.tag g.revision,
            Event.copied dst src, Event.wroteManifest m2, Event.destroyed d] }) := by
  rcases hd : env.deduce path0 g.insecure with e | ⟨repoURL, extra⟩
  · exact Or.inl (by simp [fetchCore, hd])
  · by_cases hv : w.stored.hasImportpath (stripscheme path0) = true
    · exact Or.inl (by simp [fetchCore, hd, hv])
    · rcases hck : env.checkout repoURL g.branch g.tag g.revision with e | wc
      · exact Or.inr (Or.inl ⟨repoURL, by simp [fetchCore, hd, hv, hck]⟩)
      · rcases hrev : wc.revisionR with e | rev
        · exact Or.inr (Or.inl ⟨repoURL, by simp [fetchCore, hd, hv, hck, hrev]⟩)
        · rcases hbr : wc.branchR with e | bl
          · exact Or.inr (Or.inl ⟨repoURL, by simp [fetchCore, hd, hv, hck, hrev, hbr]⟩)
          · rcases hadd : w.stored.addDependency
                ⟨stripscheme path0, repoURL, rev, bl, extra⟩ with e | m2
            · exact Or.inr (Or.inl ⟨repoURL,
                by simp [fetchCore, hd, hv, hck, hrev, hbr, hadd]⟩)
            · rcases hcp : env.copy (env.vendorDir glob ++ "/" ++ stripscheme path0)
                  (wc.dir ++ "/" ++ extra) with e | u
              · exact Or.inr (Or.inl ⟨repoURL,
                  by simp [fetchCore, hd, hv, hck, hrev, hbr, hadd, hcp]⟩)
              · cases u
                rcases hwm : env.writeManifest m2 with e2 | u2
                · exact Or.inr (Or.inr (Or.inl ⟨repoURL,
                    env.vendorDir glob ++ "/" ++ stripscheme path0,
                    wc.dir ++ "/" ++ extra, hcp,
                    by simp [fetchCore, hd, hv, hck, hrev, hbr, hadd, hcp, hwm,
                      List.append_assoc]⟩))
                · cases u2
                  refine Or.inr (Or.inr (Or.inr ⟨repoURL,
                    env.vendorDir glob ++ "/" ++ stripscheme path0,
                    wc.dir ++ "/" ++ extra, m2, wc.dir, hcp, hwm, ?_⟩))
                  rcases hdd : wc.destroyR with e3 | u3 <;>
                    simp [fetchCore, hd, hv, hck, hrev, hbr, hadd, hcp, hwm, hdd,
                      List.append_assoc]

theorem fetchCore_trace_pre (env : FetchEnv) (g : Globals) (w : World) (path0 : String)
    (glob : Bool) : w.trace <+: (fetchCore env g w path0 glob).1.trace := by
  rcases fetchCore_world_cases env g w path0 glob with h | ⟨repo, h⟩ |
    ⟨repo, dst, src, hcp, h⟩ | ⟨repo, dst, src, m2, d, hcp, hwm, h⟩
  · rw [h]
  · rw [h]
    exact List.prefix_append _ _
  · rw [h]
    exact List.prefix_append _ _
  · rw [h]
    exact List.prefix_append _ _

theorem fetchLoop_trace_pre (env : FetchEnv) (g : Globals) (glob : Bool) (path : String) :
    ∀ (fuel : Nat) (w : World), w.trace <+: (fetchLoop env g glob path fuel w).1.trace := by
  intro fuel
  induction fuel with
  | zero => intro w; exact List.prefix_rfl
  | succ fuel ih =>
    intro w
    simp only [fetchLoop]
    split
    · exact List.prefix_rfl
    · split
      · exact List.prefix_rfl
      · split
        · exact List.prefix_rfl
        · split
          · exact List.prefix_rfl
          · split
            · refine List.IsPrefix.trans ?_ (fetchCore_trace_pre env g _ _ glob)
              exact List.prefix_append _ _
            · refine List.IsPrefix.trans ?_ (fetchCore_trace_pre env g _ _ glob)
              exact List.prefix_append _ _
            · refine List.IsPrefix.trans ?_ (fetchCore_trace_pre env g _ _ glob)
              exact List.prefix_append _ _
            · refine List.IsPrefix.trans ?_ (ih _)
              refine List.IsPrefix.trans ?_ (fetchCore_trace_pre env g _ _ glob)
              exact List.prefix_append _ _

/-! ## Claims about the graph analyzer -/

theorem lookupA_some_of_mem_fst {α : Type} {l : List (String × α)} {k : String}
    (h : k ∈ l.map Prod.fst) : ∃ v, lookupA l k = some v := by
  induction l with
  | nil => cases h
  | cons kv rest ih =>
    obtain ⟨k1, v⟩ := kv
    simp only [List.map_cons] at h
    by_cases hk : k = k1
    · exact ⟨v, by simp [lookupA, hk]⟩
    · rcases List.mem_cons.mp h with h1 | h1
      · exact absurd h1 hk
      · obtain ⟨v2, hv2⟩ := ih h1
        exact ⟨v2, by simp [lookupA, hk, hv2]⟩

theorem buildImports_key_of_pkg {dsm : List (String × Depset)} {s : String × Depset}
    {p : Pkg} (hs : s ∈ dsm) (hp : p ∈ s.2.pkgs) :
    p.importPath ∈ (buildImports dsm).map Prod.fst := by
  unfold buildImports
  rw [List.map_cons]
  apply List.mem_cons_of_mem
  rw [List.mem_map]
  refine ⟨(p.importPath, p.imports), ?_, rfl⟩
  rw [List.mem_reverse, List.mem_flatMap]
  exact ⟨s, hs, List.mem_map.mpr ⟨p, hp, rfl⟩⟩

/-- Claim C5, counterexample to the claim as stated: a self-import is a cycle
among present packages, but `findMissing` does not abort on it — the
self-import edge is skipped and the analysis returns an empty missing set. -/
theorem findMissing_self_import_no_abort :
    findMissing [⟨"A", ["A"]⟩] [("root", ⟨[⟨"A", ["A"]⟩]⟩)] = .ok [] := by decide

/-- Claim C5 (amended): for every two-package import cycle `{a -> [b],
b -> [a]}` between distinct present packages (neither being the cgo
pseudo-path, which the analyzer overwrites with an import-free entry),
`findMissing` on target `a` aborts with the internal import-loop fault —
raised when `a` is pushed while already on the visitation stack — rather
than recursing indefinitely.  Self-import cycles are skipped instead. -/
theorem findMissing_two_cycle_aborts (a b : String) (hab : a ≠ b) (haC : a ≠ "C")
    (hbC : b ≠ "C") :
    findMissing [⟨a, [b]⟩] [("root", ⟨[⟨a, [b]⟩, ⟨b, [a]⟩]⟩)] = .error (.loop a) := by
  simp [findMissing, buildImports, runTargets, fnGo, runList, lookupA, insertS,
    hab, haC, hbC, Ne.symm hab, Ne.symm haC, Ne.symm hbC]

/-- Witness for C5's amended theorem at `a := "A"`, `b := "B"`. -/
theorem findMissing_two_cycle_aborts_witness :
    ("A" : String) ≠ "B" ∧ ("A" : String) ≠ "C" ∧ ("B" : String) ≠ "C" ∧
    findMissing [⟨"A", ["B"]⟩] [("root", ⟨[⟨"A", ["B"]⟩, ⟨"B", ["A"]⟩]⟩)]
      = .error (.loop "A") :=
  ⟨by decide, by decide, by decide,
    findMissing_two_cycle_aborts "A" "B" (by decide) (by decide) (by decide)⟩

/-- Claim C6: `findMissing` returns exactly the transitively required but
unavailable import paths: with `{a -> [b], b -> []}` and both present, target
`a` yields the empty set; with `{a -> [b], b -> [c]}` and only `a`, `b`
present, target `a` yields exactly `{c}`.  (The package names must be
distinct and distinct from the cgo pseudo-path `"C"`, which is always treated
as present.) -/
theorem findMissing_missing_set_examples (a b c : String) (hab : a ≠ b) (hbc : b ≠ c)
    (hac : a ≠ c) (haC : a ≠ "C") (hbC : b ≠ "C") (hcC : c ≠ "C") :
    findMissing [⟨a, [b]⟩] [("root", ⟨[⟨a, [b]⟩, ⟨b, []⟩]⟩)] = .ok []
    ∧ findMissing [⟨a, [b]⟩] [("root", ⟨[⟨a, [b]⟩, ⟨b, [c]⟩]⟩)] = .ok [c] := by
  constructor
  · simp [findMissing, buildImports, runTargets, fnGo, runList, lookupA, insertS,
      hab, haC, hbC, Ne.symm hab, Ne.symm haC, Ne.symm hbC]
  · simp [findMissing, buildImports, runTargets, fnGo, runList, lookupA, insertS,
      hab, hbc, hac, haC, hbC, hcC, Ne.symm hab, Ne.symm hbc, Ne.symm hac,
      Ne.symm haC, Ne.symm hbC, Ne.symm hcC]

/-- Witness for C6 at `a := "aa"`, `b := "bb"`, `c := "cc"`. -/
theorem findMissing_missing_set_examples_witness :
    ("aa" : String) ≠ "bb" ∧ ("bb" : String) ≠ "cc" ∧ ("aa" : String) ≠ "cc" ∧
    ("aa" : String) ≠ "C" ∧ ("bb" : String) ≠ "C" ∧ ("cc" : String) ≠ "C" ∧
    (findMissing [⟨"aa", ["bb"]⟩] [("root", ⟨[⟨"aa", ["bb"]⟩, ⟨"bb", []⟩]⟩)] = .ok []
      ∧ findMissing [⟨"aa", ["bb"]⟩] [("root", ⟨[⟨"aa", ["bb"]⟩, ⟨"bb", ["cc"]⟩]⟩)]
        = .ok ["cc"]) :=
  ⟨by decide, by decide, by decide, by decide, by decide, by decide,
    findMissing_missing_set_examples "aa" "bb" "cc" (by decide) (by decide) (by decide)
      (by decide) (by decide) (by decide)⟩

/-- Claim C8: the native-interop pseudo-import path `"C"` is never an element
of a missing set returned by `findMissing`, for every target list and depset
map — the analyzer installs an import-free `"C"` entry that overrides
anything else, so `"C"` always looks present. -/
theorem findMissing_never_reports_C (pkgs : List Pkg) (dsm : List (String × Depset))
    (m : List String) (h : findMissing pkgs dsm = .ok m) : "C" ∉ m := by
  intro hc
  obtain ⟨p, hp, hr⟩ := (findMissing_char h "C").mp hc
  have hnone := reachAbsent_lookup hr
  have hsome : lookupA (buildImports dsm) "C" = some [] := by
    simp [buildImports, lookupA]
  rw [hsome] at hnone
  cases hnone

/-- Witness for C8: a run whose missing set is nonempty (`{"B"}`) and does
not contain `"C"` even though `"C"` resolves to no real package. -/
theorem findMissing_never_reports_C_witness :
    findMissing [⟨"A", ["B", "C"]⟩] [("root", ⟨[⟨"A", ["B", "C"]⟩]⟩)] = .ok ["B"]
    ∧ "C" ∉ (["B"] : List String) :=
  ⟨by decide,
    findMissing_never_reports_C [⟨"A", ["B", "C"]⟩] [("root", ⟨[⟨"A", ["B", "C"]⟩]⟩)]
      ["B"] (by decide)⟩

/-- Claim C9: the `checked` memoization never changes the returned missing
set — a successful memoized `findMissing` run over a target list returns, up
to set membership, exactly the union of the missing sets computed by
re-traversing each target independently with the memo removed
(`findMissingNoMemo`), whenever those independent traversals complete. -/
theorem findMissing_memo_equiv (dsm : List (String × Depset)) (pkgs : List Pkg)
    (m : List String) (mt : Pkg → List String)
    (hm : findMissing pkgs dsm = .ok m)
    (ht : ∀ p ∈ pkgs, findMissingNoMemo [p] dsm = .ok (mt p)) (x : String) :
    x ∈ m ↔ ∃ p ∈ pkgs, x ∈ mt p := by
  rw [findMissing_char hm x]
  constructor
  · rintro ⟨p, hp, hr⟩
    refine ⟨p, hp, ?_⟩
    rw [findMissingNoMemo_char (ht p hp) x]
    exact ⟨p, List.mem_cons_self _ _, hr⟩
  · rintro ⟨p, hp, hx⟩
    rw [findMissingNoMemo_char (ht p hp) x] at hx
    obtain ⟨q, hq, hr⟩ := hx
    rw [List.mem_singleton] at hq
    rw [hq] at hr
    exact ⟨p, hp, hr⟩

/-- Witness for C9: targets `A`, `B` sharing the fully absent subtree `X`;
the memoized run and the per-target unmemoized runs agree. -/
theorem findMissing_memo_equiv_witness :
    findMissing pkgsMemo dsmMemo = .ok ["X"]
    ∧ (∀ p ∈ pkgsMemo, findMissingNoMemo [p] dsmMemo = .ok (mtMemo p))
    ∧ (∀ x, x ∈ (["X"] : List String) ↔ ∃ p ∈ pkgsMemo, x ∈ mtMemo p) :=
  ⟨by decide, by decide,
    findMissing_memo_equiv dsmMemo pkgsMemo ["X"] mtMemo (by decide) (by decide)⟩

/-- Claim C10: every import path in a returned missing set is absent from the
combined import-path→package mapping built from all depsets — `findMissing`
never reports as missing a path that some known root provides. -/
theorem findMissing_result_absent (pkgs : List Pkg) (dsm : List (String × Depset))
    (m : List String) (h : findMissing pkgs dsm = .ok m) :
    ∀ x ∈ m, ∀ s ∈ dsm, ∀ p ∈ s.2.pkgs, p.importPath ≠ x := by
  intro x hx s hs p hp heq
  obtain ⟨t, ht, hr⟩ := (findMissing_char h x).mp hx
  have hnone := reachAbsent_lookup hr
  have hkey : x ∈ (buildImports dsm).map Prod.fst := by
    rw [← heq]
    exact buildImports_key_of_pkg hs hp
  obtain ⟨v, hv⟩ := lookupA_some_of_mem_fst hkey
  rw [hv] at hnone
  cases hnone

/-- Witness for C10: the returned missing set `{"B"}` names no package
provided by the roots (only `A` is provided). -/
theorem findMissing_result_absent_witness :
    findMissing [⟨"A", ["B"]⟩] dsmAbsent = .ok ["B"]
    ∧ ("B" : String) ∈ (["B"] : List String)
    ∧ (∀ s ∈ dsmAbsent, ∀ p ∈ s.2.pkgs, p.importPath ≠ "B") :=
  ⟨by decide, by decide,
    findMissing_result_absent [⟨"A", ["B"]⟩] dsmAbsent ["B"] (by decide) "B" (by decide)⟩

/-! ## Claims about the fetch command -/

/-- Claim C1 (the code contradicts its own comment here): in a recursive
fetch with top-level selectors `-branch dev -tag v1 -revision r1`, the
recursive step's `Checkout` is invoked with tag and revision cleared but with
the ORIGINAL branch `"dev"` — not with all three selectors empty, as both the
spec and the source comment ("overwrite branch, tag and revision values so
recursive fetching checks out from HEAD", fetch.go 147–148) state.  The
`branch = ""` on line 149 assigns the function-local `branch` declared by
`branch, err := wc.Branch()` on line 111, which shadows the package-level
selector, so the package-level `branch` is never cleared. -/
theorem fetch_recursive_branch_not_cleared :
    ((fetch envRec gFlags worldEmpty "h/a" true false 3).1.trace.filter Event.isCheckout)
      = [.checkout "urlA" "dev" "v1" "r1", .checkout "urlB" "dev" "" ""]
    ∧ (fetch envRec gFlags worldEmpty "h/a" true false 3).2 = .ok () :=
  ⟨by decide, by decide⟩

/-- Claim C2, counterexample to the claim as stated: a fetch step that
successfully obtains a working copy but fails reading its revision returns
without ever invoking `Destroy` — the trace holds the checkout invocation and
no destroy event, leaking the checkout. -/
theorem fetchCore_no_destroy_on_revision_error :
    (fetchCore envRev gEmpty worldEmpty "h/a" false).2 = .error (.msg "revision failed")
    ∧ (fetchCore envRev gEmpty worldEmpty "h/a" false).1.trace
        = [.checkout "urlA" "" "" ""]
    ∧ ((fetchCore envRev gEmpty worldEmpty "h/a" false).1.trace.any Event.isDestroy)
        = false :=
  ⟨by decide, by decide, by decide⟩

/-- Claim C2 (amended): for every environment, a fetch step invokes `Destroy`
exactly when the manifest write succeeds — i.e. only on the path where the
revision read, branch read, `AddDependency`, the directory copy and the
manifest write all succeed; on any failure among these, including a failing
`WriteManifest` (fetch.go lines 135–137, which returns before the `Destroy`
on line 139), the step returns without destroying the working copy. -/
theorem fetchCore_destroy_iff_write (env : FetchEnv) (g : Globals) (w : World)
    (path0 : String) (glob : Bool) (hw : w.trace = []) :
    ((fetchCore env g w path0 glob).1.trace.any Event.isDestroy)
      = ((fetchCore env g w path0 glob).1.trace.any Event.isWrote) := by
  rcases fetchCore_world_cases env g w path0 glob with h | ⟨repo, h⟩ |
    ⟨repo, dst, src, hcp, h⟩ | ⟨repo, dst, src, m2, d, hcp, hwm, h⟩ <;>
    rw [h] <;> simp [hw, Event.isDestroy, Event.isWrote]

/-- Witness for C2's amended theorem on the revision-failure environment. -/
theorem fetchCore_destroy_iff_write_witness :
    worldEmpty.trace = []
    ∧ ((fetchCore envRev gEmpty worldEmpty "h/a" false).1.trace.any Event.isDestroy)
        = ((fetchCore envRev gEmpty worldEmpty "h/a" false).1.trace.any Event.isWrote) :=
  ⟨rfl, fetchCore_destroy_iff_write envRev gEmpty worldEmpty "h/a" false rfl⟩

/-- Claim C3: with a forced `CopyError`, a fetch step leaves the persisted
manifest unchanged and performs no manifest write at all — the write to
storage happens only after a successful copy, so a copy failure aborts the
step with the stored manifest intact. -/
theorem fetchCore_copyfail_manifest_unchanged (env : FetchEnv) (g : Globals) (w : World)
    (path0 : String) (glob : Bool) (cmsg : String)
    (hcopy : ∀ d s, env.copy d s = Except.error cmsg) :
    (fetchCore env g w path0 glob).1.stored = w.stored
    ∧ (fetchCore env g w path0 glob).1.trace.countP Event.isWrote
        = w.trace.countP Event.isWrote := by
  rcases fetchCore_world_cases env g w path0 glob with h | ⟨repo, h⟩ |
    ⟨repo, dst, src, hcp, h⟩ | ⟨repo, dst, src, m2, d, hcp, hwm, h⟩
  · rw [h]
    exact ⟨rfl, rfl⟩
  · rw [h]
    refine ⟨rfl, ?_⟩
    simp [List.countP_append, List.countP_cons, Event.isWrote]
  · rw [hcopy dst src] at hcp
    cases hcp
  · rw [hcopy dst src] at hcp
    cases hcp

/-- Witness for C3 on the copy-failure environment. -/
theorem fetchCore_copyfail_manifest_unchanged_witness :
    (∀ d s, envCopyFail.copy d s = Except.error "copy failed")
    ∧ ((fetchCore envCopyFail gEmpty worldEmpty "h/a" false).1.stored = worldEmpty.stored
      ∧ (fetchCore envCopyFail gEmpty worldEmpty "h/a" false).1.trace.countP Event.isWrote
          = worldEmpty.trace.countP Event.isWrote) :=
  ⟨fun _ _ => rfl,
    fetchCore_copyfail_manifest_unchanged envCopyFail gEmpty worldEmpty "h/a" false
      "copy failed" (fun _ _ => rfl)⟩

/-- Claim C4, counterexample to the claim as stated: the already-vendored
check is NOT step 1 — repository deduction runs first (fetch.go line 86 before
line 95), so an already-vendored path whose deduction fails returns the
deduction error, not the `AlreadyVendored` sentinel. -/
theorem fetchCore_vendored_not_sentinel :
    manVendored.hasImportpath (stripscheme "ex.com/a") = true
    ∧ (fetchCore envDed gEmpty ⟨manVendored, []⟩ "ex.com/a" false).2
        = .error (.msg "deduce failed") :=
  ⟨by decide, by decide⟩

/-- Claim C4 (amended): whenever repository deduction succeeds, a fetch of
an import path whose scheme-stripped form is already in the loaded manifest
returns the `AlreadyVendored` sentinel with the world — persisted manifest
and event trace (hence the vendor tree) — completely unchanged; the manifest
check runs after repository resolution, not before it. -/
theorem fetchCore_already_vendored_sentinel (env : FetchEnv) (g : Globals) (w : World)
    (path0 : String) (glob : Bool) (pr : String × String)
    (hd : env.deduce path0 g.insecure = .ok pr)
    (hv : w.stored.hasImportpath (stripscheme path0) = true) :
    fetchCore env g w path0 glob = (w, .error .already) := by
  obtain ⟨repoURL, extra⟩ := pr
  simp [fetchCore, hd, hv]

/-- Witness for C4's amended theorem: an already-vendored path with a
successful deduction yields the sentinel and an unchanged world. -/
theorem fetchCore_already_vendored_sentinel_witness :
    envRev.deduce "ex.com/a" gEmpty.insecure = .ok ("urlA", "")
    ∧ (⟨manVendored, []⟩ : World).stored.hasImportpath (stripscheme "ex.com/a") = true
    ∧ fetchCore envRev gEmpty ⟨manVendored, []⟩ "ex.com/a" false
        = (⟨manVendored, []⟩, .error .already) :=
  ⟨rfl, by decide,
    fetchCore_already_vendored_sentinel envRev gEmpty ⟨manVendored, []⟩ "ex.com/a" false
      ("urlA", "") rfl (by decide)⟩

/-- Claim C7: in every iteration of the recursive fetch loop whose analysis
yields a non-empty missing set, the loop logs and fetches the
lexicographically smallest import path of that set: the first event the
iteration appends is the fetch log for a member of the missing set that is a
`goLe` lower bound (Go byte-order, `sort.Strings` ascending) of all of it. -/
theorem fetchLoop_fetches_smallest (env : FetchEnv) (g : Globals) (glob : Bool)
    (path : String) (fuel : Nat) (w : World) (dsm : List (String × Depset)) (ds : Depset)
    (missing : List String)
    (hload : env.loadPaths ((env.goroot ++ "/src", "") ::
        w.stored.dependencies.map
          (fun d => (env.vendorDir glob ++ "/" ++ d.importpath, d.importpath))) = .ok dsm)
    (hds : lookupA dsm (env.vendorDir glob ++ "/" ++ path) = some ds)
    (hfm : findMissing (pkgsOf ds.pkgs) dsm = .ok missing)
    (hne : missing ≠ []) :
    ∃ pkg rest, (fetchLoop env g glob path (fuel + 1) w).1.trace
        = w.trace ++ Event.logRecursive pkg :: rest
      ∧ pkg ∈ missing ∧ ∀ q ∈ missing, goLe pkg q = true := by
  obtain ⟨mh, th, hsort⟩ : ∃ mh th, sortStrings (keys missing) = mh :: th := by
    cases hq : sortStrings (keys missing) with
    | nil =>
      exfalso
      have hlen := length_sortStrings (keys missing)
      rw [hq] at hlen
      cases missing with
      | nil => exact hne rfl
      | cons m0 rest0 => simp [keys] at hlen
    | cons mh th => exact ⟨mh, th, rfl⟩
  obtain ⟨hmem, hmin⟩ := sortStrings_head_min _ _ _ hsort
  cases missing with
  | nil => exact absurd rfl hne
  | cons m0 rest0 =>
    simp only [fetchLoop, hload, hds, hfm, hsort, List.headD_cons]
    split
    · dsimp only
      obtain ⟨ext, hext⟩ :=
        fetchCore_trace_pre env g ⟨w.stored, w.trace ++ [Event.logRecursive mh]⟩ mh glob
      refine ⟨mh, ext, ?_, hmem, hmin⟩
      rw [← hext]
      simp
    · dsimp only
      obtain ⟨ext, hext⟩ :=
        fetchCore_trace_pre env g ⟨w.stored, w.trace ++ [Event.logRecursive mh]⟩ mh glob
      refine ⟨mh, ext, ?_, hmem, hmin⟩
      rw [← hext]
      simp
    · dsimp only
      obtain ⟨ext, hext⟩ :=
        fetchCore_trace_pre env g ⟨w.stored, w.trace ++ [Event.logRecursive mh]⟩ mh glob
      refine ⟨mh, ext, ?_, hmem, hmin⟩
      rw [← hext]
      simp
    · obtain ⟨ext2, hext2⟩ := fetchLoop_trace_pre env g glob path fuel
        (fetchCore env g ⟨w.stored, w.trace ++ [Event.logRecursive mh]⟩ mh glob).1
      obtain ⟨ext, hext⟩ :=
        fetchCore_trace_pre env g ⟨w.stored, w.trace ++ [Event.logRecursive mh]⟩ mh glob
      refine ⟨mh, ext ++ ext2, ?_, hmem, hmin⟩
      rw [← hext2, ← hext]
      simp

/-- Witness for C7: missing set `{"zzz/pkg", "aaa/pkg"}` — the loop logs and
fetches `"aaa/pkg"` first. -/
theorem fetchLoop_fetches_smallest_witness :
    envSort.loadPaths ((envSort.goroot ++ "/src", "") ::
        worldEmpty.stored.dependencies.map
          (fun d => (envSort.vendorDir false ++ "/" ++ d.importpath, d.importpath)))
        = .ok dsmSort
    ∧ lookupA dsmSort (envSort.vendorDir false ++ "/" ++ "t") = some dsSort
    ∧ findMissing (pkgsOf dsSort.pkgs) dsmSort = .ok ["aaa/pkg", "zzz/pkg"]
    ∧ (["aaa/pkg", "zzz/pkg"] : List String) ≠ []
    ∧ ∃ pkg rest, (fetchLoop envSort gEmpty false "t" (0 + 1) worldEmpty).1.trace
        = worldEmpty.trace ++ Event.logRecursive pkg :: rest
      ∧ pkg ∈ (["aaa/pkg", "zzz/pkg"] : List String)
      ∧ ∀ q ∈ (["aaa/pkg", "zzz/pkg"] : List String), goLe pkg q = true :=
  ⟨rfl, by decide, by decide, by decide,
    fetchLoop_fetches_smallest envSort gEmpty false "t" 0 worldEmpty dsmSort dsSort
      ["aaa/pkg", "zzz/pkg"] rfl (by decide) (by decide) (by decide)⟩
